import Mathlib

/-!
Verification of the garbage-collected object heap of picrin
(`src/extlib/benz/gc.c`), shallowly embedded in Lean 4.

The embedding follows the source file function by function.  The two
collector back-ends (`gc/markandsweep.c`, `gc/bitmap.c`) and the private
headers are not part of the source tree under verification, so their
primitives (`heap_alloc`, `heap_morecore`, `gc_init`, `gc_sweep_page`,
`PAGE_UNITS`, `PIC_PAGE_REQUEST_THRESHOLD`, `is_marked`, `mark`) are
modelled abstractly from the specification, as noted at each definition.
-/

namespace Picrin

/-! ## Allocator shim: `pic_calloc` (gc.c lines 79-91) -/

namespace Shim

/-- `pic_calloc(pic, count, size)` from gc.c:79-91.  The allocator callback
`allocf` is abstracted by the success predicate `f sz` (does `allocf`
return a non-null pointer for a request of `sz` bytes?); `w` is the bit
width of the C `size_t`, so the statement `size *= count;` wraps modulo
`2 ^ w`.  The source panics with "memory exhausted" exactly when the
returned pointer is null and the (wrapped) size is non-zero; otherwise
`memset(ptr, 0, size)` zero-fills the block, which we model as the list of
`sz` zero bytes. -/
def pic_calloc (w : Nat) (f : Nat → Bool) (count size : Nat) : Except String (List Nat) :=
  if !f ((count * size) % 2 ^ w) && decide (0 < (count * size) % 2 ^ w) then
    Except.error "memory exhausted"
  else Except.ok (List.replicate ((count * size) % 2 ^ w) 0)

/-- Claim C10: `pic_calloc(count, size)` computes the byte count as
`count * size` in machine-word arithmetic (wrapping modulo `2 ^ w`), so an
overflowing product allocates and zero-fills only the wrapped number of
bytes, and the out-of-memory panic fires exactly when the (possibly
wrapped) size is non-zero and the allocator returns null. -/
theorem calloc_wrapping (w : Nat) (f : Nat → Bool) (count size : Nat) :
    (pic_calloc w f count size = Except.error "memory exhausted" ↔
      (f ((count * size) % 2 ^ w) = false ∧ 0 < (count * size) % 2 ^ w))
    ∧ (∀ b, pic_calloc w f count size = Except.ok b →
        b.length = (count * size) % 2 ^ w ∧ ∀ x ∈ b, x = 0)
    ∧ (f ((count * size) % 2 ^ w) = true →
        pic_calloc w f count size = Except.ok (List.replicate ((count * size) % 2 ^ w) 0)) := by
  rcases hf : f ((count * size) % 2 ^ w) with _ | _
  · by_cases hz : 0 < (count * size) % 2 ^ w
    · have heq : pic_calloc w f count size = Except.error "memory exhausted" := by
        simp [pic_calloc, hf, hz]
      refine ⟨by simp [heq, hf, hz], ?_, ?_⟩
      · intro b hb
        rw [heq] at hb
        exact absurd hb (by simp)
      · intro h
        exact absurd h (by simp [hf])
    · have heq : pic_calloc w f count size
          = Except.ok (List.replicate ((count * size) % 2 ^ w) 0) := by
        simp [pic_calloc, hf, hz]
      refine ⟨by simp [heq, hz], ?_, fun _ => heq⟩
      · intro b hb
        rw [heq] at hb
        injection hb with hb'
        subst hb'
        exact ⟨by simp, fun x hx => List.eq_of_mem_replicate hx⟩
  · have heq : pic_calloc w f count size
        = Except.ok (List.replicate ((count * size) % 2 ^ w) 0) := by
      simp [pic_calloc, hf]
    refine ⟨by simp [heq, hf], ?_, fun _ => heq⟩
    intro b hb
    rw [heq] at hb
    injection hb with hb'
    subst hb'
    exact ⟨by simp, fun x hx => List.eq_of_mem_replicate hx⟩

/-- Witness for C10 at a concrete overflowing input: on a 64-bit word,
`count = 2^32` and `size = 2^33` give a product of `2^65`, which wraps to
`0`, so `pic_calloc` allocates zero bytes without panicking even though
the mathematical product is huge. -/
theorem calloc_wrapping_witness :
    pic_calloc 64 (fun _ => true) (2 ^ 32) (2 ^ 33)
        = Except.ok (List.replicate ((2 ^ 32 * 2 ^ 33) % 2 ^ 64) 0)
    ∧ (2 ^ 32 * 2 ^ 33) % 2 ^ 64 < 2 ^ 32 * 2 ^ 33 :=
  ⟨(calloc_wrapping 64 (fun _ => true) (2 ^ 32) (2 ^ 33)).2.2 rfl, by decide⟩

end Shim

/-! ## Root registry ("arena"): `gc_protect`, `pic_protect`, `pic_enter`,
`pic_leave` (gc.c lines 99-130) -/

namespace Arena

/-- A `pic_value` as the GC sees it: an immediate (small int, bool, char,
nil, ...) or a pointer to a heap object, here identified by a natural
number. -/
inductive Value where
  | imm (k : Nat) : Value
  | obj (o : Nat) : Value
deriving DecidableEq

/-- `pic_obj_p(pic, v)`: does the value point to a heap object? -/
def pic_obj_p : Value → Bool
  | .imm _ => false
  | .obj _ => true

/-- `pic_obj_ptr(v)` for a value already known to be an object. -/
def pic_obj_ptr : Value → Nat
  | .imm _ => 0
  | .obj o => o

/-- The arena state embedded from `pic_state`: the backing store
(`pic->arena`, a function from slot index to stored object pointer; the
`realloc` in `gc_protect` preserves existing contents, so growth leaves
`data` unchanged), the fill index `pic->arena_idx`, and the capacity
`pic->arena_size`. -/
structure ArenaSt where
  data : Nat → Nat
  arena_idx : Nat
  arena_size : Nat

/-- `gc_protect` (gc.c:99-107): if `arena_idx >= arena_size`, grow the
capacity to `arena_size * 2 + 1` (the realloc keeps the stored slots);
then store the object at `arena[arena_idx]` and increment `arena_idx`. -/
def gc_protect (s : ArenaSt) (o : Nat) : ArenaSt :=
  let s1 := if s.arena_idx ≥ s.arena_size then
              { s with arena_size := s.arena_size * 2 + 1 }
            else s
  { s1 with
    data := fun i => if i = s1.arena_idx then o else s1.data i,
    arena_idx := s1.arena_idx + 1 }

/-- `pic_protect` (gc.c:109-118): immediates are returned unchanged
without touching the arena; heap objects are pushed via `gc_protect` and
the value is returned unchanged. -/
def pic_protect (s : ArenaSt) (v : Value) : ArenaSt × Value :=
  match v with
  | .imm k => (s, .imm k)
  | .obj o => (gc_protect s o, .obj o)

/-- `pic_enter` (gc.c:120-124): returns the current arena length. -/
def pic_enter (s : ArenaSt) : Nat :=
  s.arena_idx

/-- `pic_leave` (gc.c:126-130): assigns the saved mark back to
`arena_idx`. -/
def pic_leave (s : ArenaSt) (state : Nat) : ArenaSt :=
  { s with arena_idx := state }

/-- Claim C4: `protect(v)` returns `v` unchanged for every input; an
immediate leaves the arena untouched; a heap object is stored at the
current arena index (other slots unchanged), with the capacity growing
from `n` to `2*n + 1` exactly when the index has reached the capacity. -/
theorem protect_spec (s : ArenaSt) (v : Value) :
    (pic_protect s v).2 = v
    ∧ (pic_obj_p v = false → (pic_protect s v).1 = s)
    ∧ (∀ o, v = .obj o →
        ((pic_protect s v).1.data s.arena_idx = o
        ∧ (pic_protect s v).1.arena_idx = s.arena_idx + 1
        ∧ (∀ i, i ≠ s.arena_idx → (pic_protect s v).1.data i = s.data i)
        ∧ (s.arena_idx < s.arena_size → (pic_protect s v).1.arena_size = s.arena_size)
        ∧ (s.arena_idx = s.arena_size →
            (pic_protect s v).1.arena_size = 2 * s.arena_size + 1))) := by
  rcases v with k | o
  · refine ⟨rfl, fun _ => rfl, ?_⟩
    intro o h
    exact absurd h (by simp)
  · refine ⟨rfl, ?_, ?_⟩
    · intro h
      simp [pic_obj_p] at h
    · intro o' h
      injection h with h'
      subst h'
      by_cases hge : s.arena_idx ≥ s.arena_size
      · refine ⟨by simp [pic_protect, gc_protect, hge], by simp [pic_protect, gc_protect, hge],
          fun i hi => by simp [pic_protect, gc_protect, hge, hi],
          fun hlt => absurd hlt (Nat.not_lt.mpr hge),
          fun _ => by simp [pic_protect, gc_protect, hge, Nat.mul_comm]⟩
      · refine ⟨by simp [pic_protect, gc_protect, hge], by simp [pic_protect, gc_protect, hge],
          fun i hi => by simp [pic_protect, gc_protect, hge, hi],
          fun _ => by simp [pic_protect, gc_protect, hge],
          fun heq => absurd heq.ge hge⟩

/-- Witness for C4 at a concrete full arena (`arena_idx = arena_size = 3`):
protecting object `42` returns the value unchanged, stores `42` at slot 3,
and grows the capacity to `2*3 + 1 = 7`. -/
theorem protect_spec_witness :
    (pic_protect ⟨fun _ => 0, 3, 3⟩ (.obj 42)).2 = Value.obj 42
    ∧ (pic_protect ⟨fun _ => 0, 3, 3⟩ (.obj 42)).1.data 3 = 42
    ∧ (pic_protect ⟨fun _ => 0, 3, 3⟩ (.obj 42)).1.arena_idx = 4
    ∧ (pic_protect ⟨fun _ => 0, 3, 3⟩ (.obj 42)).1.arena_size = 2 * 3 + 1 := by
  have h := protect_spec ⟨fun _ => 0, 3, 3⟩ (.obj 42)
  exact ⟨h.1, (h.2.2 42 rfl).1, (h.2.2 42 rfl).2.1, (h.2.2 42 rfl).2.2.2.2 rfl⟩

/-- Embedder programs over the arena API, used to state the LIFO property
of nested `enter`/`leave` scopes: a scope saves the length with
`pic_enter`, runs its body, and restores with `pic_leave`. -/
inductive AProg where
  | nop : AProg
  | protectOp (v : Value) : AProg
  | seq (p q : AProg) : AProg
  | scope (p : AProg) : AProg

/-- Run an embedder program against the arena. -/
def runProg : AProg → ArenaSt → ArenaSt
  | .nop, s => s
  | .protectOp v, s => (pic_protect s v).1
  | .seq p q, s => runProg q (runProg p s)
  | .scope p, s => pic_leave (runProg p s) (pic_enter s)

/-- Claim C5: `enter()` returns the current arena length and
`leave(mark)` truncates the arena to that length, so `leave(enter())`
leaves the arena state unchanged, and nested `enter`/`leave` pairs behave
as a LIFO stack of saved lengths: any scoped body, however it pushes and
nests, restores the outer arena length on exit. -/
theorem enter_leave_discipline (s : ArenaSt) :
    pic_leave s (pic_enter s) = s
    ∧ (∀ m, m ≤ s.arena_idx → (pic_leave s m).arena_idx = m)
    ∧ (∀ p : AProg, (runProg (.scope p) s).arena_idx = s.arena_idx) :=
  ⟨rfl, fun _ _ => rfl, fun _ => rfl⟩

/-- Witness for C5 at a concrete state with `arena_idx = 5`: leaving at the
entered mark is the identity, `leave 2` truncates to length 2, and a scope
that pushes two objects restores length 5 on exit. -/
theorem enter_leave_discipline_witness :
    pic_leave ⟨fun _ => 0, 5, 8⟩ (pic_enter ⟨fun _ => 0, 5, 8⟩) = (⟨fun _ => 0, 5, 8⟩ : ArenaSt)
    ∧ (pic_leave ⟨fun _ => 0, 5, 8⟩ 2).arena_idx = 2
    ∧ (runProg (.scope (.seq (.protectOp (.obj 1)) (.protectOp (.obj 2))))
        ⟨fun _ => 0, 5, 8⟩).arena_idx = 5 :=
  ⟨(enter_leave_discipline ⟨fun _ => 0, 5, 8⟩).1,
   (enter_leave_discipline ⟨fun _ => 0, 5, 8⟩).2.1 2 (by decide),
   (enter_leave_discipline ⟨fun _ => 0, 5, 8⟩).2.2 _⟩

/-- Claim C9 (implicit): `pic_leave(m)` unconditionally assigns the arena
length to `m` with no validation against the current length, so a mark
greater than the current index *increases* the visible root window
instead of truncating it; the stored slots are untouched, so the
re-exposed slots hold their stale contents. -/
theorem leave_no_validation (s : ArenaSt) (m : Nat) :
    (pic_leave s m).arena_idx = m
    ∧ (pic_leave s m).data = s.data
    ∧ (s.arena_idx < m → s.arena_idx < (pic_leave s m).arena_idx) :=
  ⟨rfl, rfl, fun h => h⟩

/-- Witness for C9: leaving at mark `7` from a state with `arena_idx = 2`
grows the visible window from 2 to 7 slots. -/
theorem leave_no_validation_witness :
    (pic_leave ⟨fun _ => 9, 2, 4⟩ 7).arena_idx = 7
    ∧ (2 : Nat) < (pic_leave ⟨fun _ => 9, 2, 4⟩ 7).arena_idx :=
  ⟨(leave_no_validation ⟨fun _ => 9, 2, 4⟩ 7).1,
   (leave_no_validation ⟨fun _ => 9, 2, 4⟩ 7).2.2 (by decide)⟩

end Arena

/-! ## Allocation entry points: `pic_obj_alloc_unsafe` (gc.c lines 545-571) -/

namespace Alloc

/-- The mutable header fields of a `struct object` that
`pic_obj_alloc_unsafe` writes: the mark color `gc_mark` (the
mark-and-sweep back-end's `WHITE` is modelled as `false`) and the type
tag `tt`. -/
structure Obj where
  gc_mark : Bool
  tt : Nat
deriving DecidableEq

/-- The back-end interface used by `pic_obj_alloc_unsafe`, abstract over
the heap representation `σ`.  Modelled from the spec: `heap_alloc` and
`heap_morecore` live in the back-end files (`gc/markandsweep.c`,
`gc/bitmap.c`), which are not part of the source tree under
verification; `collect` abstracts the call to `pic_gc`.  `heap_alloc`
returns the updated heap and the fresh object, or `none` when no cell
fits. -/
structure Backend (σ : Type) where
  heap_alloc : σ → Nat → Option (σ × Obj)
  collect : σ → σ
  heap_morecore : σ → σ

/-- `pic_obj_alloc_unsafe(pic, size, type)` from gc.c:545-571 (the
`GC_STRESS` compile-time option is off).  Try `heap_alloc`; if it returns
null, run `pic_gc` and retry; if that fails, run `heap_morecore` and
retry; if the third attempt also fails, panic with "GC memory exhausted"
(modelled as `Except.error`, which terminates the interpreter instance —
`pic_panic` does not return).  On success the object's mark is set to
`WHITE` and its type tag to `type`. -/
def pic_obj_alloc_raw {σ : Type} (B : Backend σ) (s : σ) (size type : Nat) :
    Except String (σ × Obj) :=
  match B.heap_alloc s size with
  | some (s1, o) => Except.ok (s1, { o with gc_mark := false, tt := type })
  | none =>
    let s1 := B.collect s
    match B.heap_alloc s1 size with
    | some (s2, o) => Except.ok (s2, { o with gc_mark := false, tt := type })
    | none =>
      let s2 := B.heap_morecore s1
      match B.heap_alloc s2 size with
      | some (s3, o) => Except.ok (s3, { o with gc_mark := false, tt := type })
      | none => Except.error "GC memory exhausted"

/-- Claim C3: `alloc_unsafe(size, tt)` first tries `heap_alloc`; on `nil`
it runs a full collect and retries; on second failure it calls `morecore`
and retries a third time; only when the third attempt also fails does it
panic.  On success the returned object's type tag is `tt` (and its mark
is reset to white). -/
theorem alloc_retry_sequence {σ : Type} (B : Backend σ) (s : σ) (size type : Nat) :
    (∀ s1 o, B.heap_alloc s size = some (s1, o) →
      pic_obj_alloc_raw B s size type
        = Except.ok (s1, { o with gc_mark := false, tt := type }))
    ∧ (B.heap_alloc s size = none →
      ∀ s2 o, B.heap_alloc (B.collect s) size = some (s2, o) →
        pic_obj_alloc_raw B s size type
          = Except.ok (s2, { o with gc_mark := false, tt := type }))
    ∧ (B.heap_alloc s size = none →
      B.heap_alloc (B.collect s) size = none →
      ∀ s3 o, B.heap_alloc (B.heap_morecore (B.collect s)) size = some (s3, o) →
        pic_obj_alloc_raw B s size type
          = Except.ok (s3, { o with gc_mark := false, tt := type }))
    ∧ (B.heap_alloc s size = none →
      B.heap_alloc (B.collect s) size = none →
      B.heap_alloc (B.heap_morecore (B.collect s)) size = none →
        pic_obj_alloc_raw B s size type = Except.error "GC memory exhausted")
    ∧ (∀ r, pic_obj_alloc_raw B s size type = Except.ok r → r.2.tt = type) := by
  refine ⟨?_, ?_, ?_, ?_, ?_⟩
  · intro s1 o h
    simp [pic_obj_alloc_raw, h]
  · intro h0 s2 o h
    simp [pic_obj_alloc_raw, h0, h]
  · intro h0 h1 s3 o h
    simp [pic_obj_alloc_raw, h0, h1, h]
  · intro h0 h1 h2
    simp [pic_obj_alloc_raw, h0, h1, h2]
  · intro r hr
    unfold pic_obj_alloc_raw at hr
    rcases h0 : B.heap_alloc s size with _ | ⟨s1, o⟩
    · rcases h1 : B.heap_alloc (B.collect s) size with _ | ⟨s2, o⟩
      · rcases h2 : B.heap_alloc (B.heap_morecore (B.collect s)) size with _ | ⟨s3, o⟩
        · simp [h0, h1, h2] at hr
        · simp [h0, h1, h2] at hr
          rw [← hr]
      · simp [h0, h1] at hr
        rw [← hr]
    · simp [h0] at hr
      rw [← hr]

/-- A concrete back-end whose heap is always exhausted: every allocation
attempt fails. -/
def failBackend : Backend Unit :=
  ⟨fun _ _ => none, fun _ => (), fun _ => ()⟩

/-- Witness for C3 on the always-exhausted back-end: all three attempts
fail, so the call panics — and only then. -/
theorem alloc_retry_sequence_witness :
    pic_obj_alloc_raw failBackend () 8 3 = Except.error "GC memory exhausted" :=
  (alloc_retry_sequence failBackend () 8 3).2.2.2.1 rfl rfl rfl

/-- Counterexample to claim C2 as stated: on memory exhaustion the source
(gc.c:562) panics with the message "GC memory exhausted", which is not
the message "(GC) memory exhausted" given in the claim. -/
theorem panic_message_counterexample :
    pic_obj_alloc_raw failBackend () 1 0 = Except.error "GC memory exhausted"
    ∧ "GC memory exhausted" ≠ "(GC) memory exhausted" :=
  ⟨rfl, by decide⟩

/-- Claim C2 (amended): when memory is exhausted after a full collection
plus an additional page request, the GC reports the condition via the
host panic mechanism with the exact message "GC memory exhausted" (and
`pic_panic` terminates the interpreter instance); moreover that is the
only message the allocator can panic with. -/
theorem panic_message_amended {σ : Type} (B : Backend σ) (s : σ) (size type : Nat)
    (h0 : B.heap_alloc s size = none)
    (h1 : B.heap_alloc (B.collect s) size = none)
    (h2 : B.heap_alloc (B.heap_morecore (B.collect s)) size = none) :
    pic_obj_alloc_raw B s size type = Except.error "GC memory exhausted"
    ∧ (∀ msg, pic_obj_alloc_raw B s size type = Except.error msg →
        msg = "GC memory exhausted") := by
  have h : pic_obj_alloc_raw B s size type = Except.error "GC memory exhausted" := by
    simp [pic_obj_alloc_raw, h0, h1, h2]
  refine ⟨h, fun msg hmsg => ?_⟩
  rw [h] at hmsg
  injection hmsg with h'
  exact h'.symm

/-- Witness for the amended C2 on the always-exhausted back-end. -/
theorem panic_message_amended_witness :
    pic_obj_alloc_raw failBackend () 16 2 = Except.error "GC memory exhausted" :=
  (panic_message_amended failBackend () 16 2 rfl rfl rfl).1

end Alloc

/-! ## The mark phase (gc.c lines 143-385), the ephemeron fixed point, and
the sweep phase (gc.c lines 389-530)

The object heap is embedded as a finite graph: objects are identified
by naturals below `Graph.n`.  Per-variant tracing (`gc_mark_object`'s
switch over PAIR, CXT, VECTOR, ENV, ... arms, gc.c:168-291) is
abstracted into the per-object list `edges` of outgoing heap
references; this loses nothing for the weak-map claims, because every
arm other than `PIC_TYPE_WEAK` just marks each outgoing reference
(directly or through the `LOOP` tail-call).  A `PIC_TYPE_WEAK` object
has no outgoing references besides its hash entries (`struct weak`
holds only the hash and the transient `prev` link), which is the
hypothesis `isWeak o = true → edges o = []` below.  The back-end
primitives `mark`/`is_marked` are modelled from the spec as a set of
marked objects, and `gc_init` is assumed to have cleared all marks, as
the `assert(pic->heap->weaks == NULL)` at the head of `gc_mark_phase`
demands for the chain. -/

namespace GC

/-- A `pic_value` stored in a weak-map slot: an immediate (skipped by
`gc_mark`, gc.c:376 `pic_obj_p(pic, val)`) or a heap object. -/
inductive WVal where
  | imm : WVal
  | obj (o : Nat) : WVal
deriving DecidableEq

/-- The object heap as the mark phase sees it: `n` objects, the outgoing
heap references `edges` of each object, whether it is a `PIC_TYPE_WEAK`
object, and — for weak maps — the list of `(key, value)` hash entries. -/
structure Graph where
  n : Nat
  edges : Nat → List Nat
  isWeak : Nat → Bool
  entries : Nat → List (Nat × WVal)

/-- A weak-map value slot stays inside the heap. -/
def wvalLT (n : Nat) : WVal → Bool
  | .imm => true
  | .obj o => o < n

/-- The transient mark-phase state: the set of marked objects (the
back-ends' mark bit / bitmap) and the chain `pic->heap->weaks` of weak
maps encountered during marking, linked through their `prev` fields
(head first). -/
structure MSt where
  marked : Finset Nat
  weaks : List Nat

/-- `gc_mark_object` (gc.c:156-292): return if already marked; mark;
a weak map is pushed onto `pic->heap->weaks` instead of being traced;
any other object has each outgoing reference traced recursively.  The
C recursion (including the `LOOP` tail-call) terminates because every
productive call marks a previously unmarked object, which the fuel
argument makes explicit; `g.n + 1` fuel always suffices (see
`markObj_spec`). -/
def markObj (g : Graph) : Nat → Nat → MSt → MSt
  | 0, _, s => s
  | fuel + 1, o, s =>
    if o ∈ s.marked then s
    else if g.isWeak o then ⟨insert o s.marked, o :: s.weaks⟩
    else (g.edges o).foldl (fun t x => markObj g fuel x t) ⟨insert o s.marked, s.weaks⟩

/-- The root scan of `gc_mark_phase` (gc.c:294-355): the checkpoint
chain, value stack, call-info stack, arena, irep pools, globals, macros,
error object, features and library table are all marked with
`gc_mark_object`/`gc_mark`; `roots` lists the objects they reference. -/
def markRoots (g : Graph) (roots : List Nat) : MSt :=
  roots.foldl (fun s r => markObj g (g.n + 1) r s) ⟨∅, []⟩

/-- One weak-map hash entry inspected by the fixed-point loop
(gc.c:370-381): if the key is marked and the value is an unmarked heap
object, mark the value and count a new mark (`++j`). -/
def weakStep (g : Graph) (fuel : Nat) (sj : MSt × Nat) (e : Nat × WVal) : MSt × Nat :=
  if e.1 ∈ sj.1.marked then
    match e.2 with
    | .imm => sj
    | .obj vo => if vo ∈ sj.1.marked then sj else (markObj g fuel vo sj.1, sj.2 + 1)
  else sj

/-- The inner `while (weak != NULL)` walk (gc.c:368-383) over the chain
snapshot taken at the head of the pass: marking a value may push newly
reached weak maps onto the head of the state's chain, but the cursor
keeps following the `prev` links of the snapshot. -/
def weakChainPass (g : Graph) (fuel : Nat) : List Nat → MSt × Nat → MSt × Nat
  | [], sj => sj
  | w :: ws, sj => weakChainPass g fuel ws ((g.entries w).foldl (weakStep g fuel) sj)

/-- One iteration of the `do { ... } while (j > 0)` loop (gc.c:358-384):
reset `j` to 0, re-read the chain head, walk the chain. -/
def weakPass (g : Graph) (fuel : Nat) (s : MSt) : MSt × Nat :=
  weakChainPass g fuel s.weaks (s, 0)

/-- The `do ... while (j > 0)` fixed-point loop itself.  A pass that
marks `j > 0` new objects strictly grows the marked set, so `g.n + 1`
iterations always reach a pass with `j = 0` (see `weakLoop_spec`). -/
def weakLoop (g : Graph) (mfuel : Nat) : Nat → MSt → MSt
  | 0, s => s
  | lf + 1, s =>
    if (weakPass g mfuel s).2 = 0 then (weakPass g mfuel s).1
    else weakLoop g mfuel lf (weakPass g mfuel s).1

/-- `gc_mark_phase` (gc.c:294-385): scan all roots, then run the
ephemeron fixed-point loop over the weak-map chain. -/
def markPhase (g : Graph) (roots : List Nat) : MSt :=
  weakLoop g (g.n + 1) (g.n + 1) (markRoots g roots)

/-- The specification's least fixed point of liveness (spec §4.5): an
object is live iff it is a root, is referenced from a live object, or is
the value of a weak-map entry whose map and key are both live.  This is
the formal reading of "reachable through paths not passing through the
map's value slot for that key": the value slot of an entry contributes
only once its key is independently live. -/
inductive Live (g : Graph) (roots : List Nat) : Nat → Prop where
  | root {o : Nat} : o ∈ roots → Live g roots o
  | edge {o o' : Nat} : Live g roots o → o' ∈ g.edges o → Live g roots o'
  | weakv {w k vo : Nat} : Live g roots w → g.isWeak w = true →
      (k, WVal.obj vo) ∈ g.entries w → Live g roots k → Live g roots vo

/-- The weak-entry purge of `gc_sweep_phase` (gc.c:496-508): for every
weak map on the transient chain, delete the entries whose key is
unmarked (the chain is then drained to `NULL`).  Weak maps that never
made it onto the chain are themselves unmarked and are reclaimed whole
by the page sweep. -/
def purgeWeakEntries (g : Graph) (F : MSt) (w : Nat) : List (Nat × WVal) :=
  if w ∈ F.weaks then (g.entries w).filter (fun e => decide (e.1 ∈ F.marked))
  else g.entries w

/-- Modelled from the spec: `gc_sweep_page` (back-end file, not in the
source tree) finalizes and reclaims exactly the unmarked cells of a
page, so an object survives `collect()` iff it is marked at sweep
time. -/
def retained (g : Graph) (roots : List Nat) (o : Nat) : Prop :=
  o ∈ (markPhase g roots).marked

/-- Marked objects stay inside the heap. -/
def Bounded (g : Graph) (s : MSt) : Prop :=
  ∀ x ∈ s.marked, x < g.n

/-- The weak chain holds exactly the marked weak maps (a weak map is
pushed at the moment it is first marked, gc.c:270-276). -/
def ChainSync (g : Graph) (s : MSt) : Prop :=
  ∀ w, w ∈ s.weaks ↔ (w ∈ s.marked ∧ g.isWeak w = true)

/-- Every marked object outside the pending set `P` already has all its
outgoing references marked.  `P` tracks the objects whose trace is still
on the C call stack. -/
def ClosedExcept (g : Graph) (s : MSt) (P : Set Nat) : Prop :=
  ∀ x ∈ s.marked, x ∉ P → ∀ y ∈ g.edges x, y ∈ s.marked

/-- Number of heap objects not yet marked: the fuel measure. -/
def unmarkedCount (g : Graph) (M : Finset Nat) : Nat :=
  (Finset.range g.n \ M).card

theorem unmarkedCount_le (g : Graph) (M : Finset Nat) : unmarkedCount g M ≤ g.n := by
  calc (Finset.range g.n \ M).card
      ≤ (Finset.range g.n).card := Finset.card_le_card (Finset.sdiff_subset)
    _ = g.n := Finset.card_range g.n

theorem unmarkedCount_mono (g : Graph) {M N : Finset Nat} (h : M ⊆ N) :
    unmarkedCount g N ≤ unmarkedCount g M :=
  Finset.card_le_card (Finset.sdiff_subset_sdiff (Finset.Subset.refl _) h)

theorem unmarkedCount_insert_lt (g : Graph) {M : Finset Nat} {o : Nat}
    (ho : o < g.n) (hm : o ∉ M) :
    unmarkedCount g (insert o M) < unmarkedCount g M := by
  have hsub : Finset.range g.n \ insert o M ⊆ Finset.range g.n \ M :=
    Finset.sdiff_subset_sdiff (Finset.Subset.refl _) (Finset.subset_insert _ _)
  exact Finset.card_lt_card ((Finset.ssubset_iff_of_subset hsub).mpr
    ⟨o, Finset.mem_sdiff.mpr ⟨Finset.mem_range.mpr ho, hm⟩,
      fun hc => (Finset.mem_sdiff.mp hc).2 (Finset.mem_insert_self o M)⟩)

theorem card_le_of_bounded (g : Graph) {s : MSt} (hB : Bounded g s) :
    s.marked.card ≤ g.n := by
  have hsub : s.marked ⊆ Finset.range g.n := fun x hx => Finset.mem_range.mpr (hB x hx)
  calc s.marked.card ≤ (Finset.range g.n).card := Finset.card_le_card hsub
    _ = g.n := Finset.card_range g.n

theorem wvalLT_obj {n vo : Nat} (h : wvalLT n (WVal.obj vo) = true) : vo < n := by
  simpa [wvalLT] using h

/-- Main invariant lemma for `gc_mark_object`: with enough fuel (more
than the number of unmarked objects, so `g.n + 1` always works), marking
an object keeps the state bounded, keeps the weak chain in sync with the
marked weak maps, marks the object, only grows the marked set and the
chain, and restores edge-closure outside the pending set `P`. -/
theorem markObj_spec (g : Graph)
    (hE : ∀ o, o < g.n → ∀ x ∈ g.edges o, x < g.n)
    (hW : ∀ o, o < g.n → g.isWeak o = true → g.edges o = []) :
    ∀ (fuel o : Nat) (s : MSt) (P : Set Nat), o < g.n →
      Bounded g s → ChainSync g s → ClosedExcept g s P →
      unmarkedCount g s.marked < fuel →
      s.marked ⊆ (markObj g fuel o s).marked
      ∧ o ∈ (markObj g fuel o s).marked
      ∧ Bounded g (markObj g fuel o s)
      ∧ ChainSync g (markObj g fuel o s)
      ∧ ClosedExcept g (markObj g fuel o s) P
      ∧ (∀ w ∈ s.weaks, w ∈ (markObj g fuel o s).weaks) := by
  intro fuel
  induction fuel with
  | zero =>
    intro o s P _ _ _ _ hU
    exact absurd hU (Nat.not_lt_zero _)
  | succ fuel ih =>
    intro o s P ho hB hC hX hU
    by_cases hm : o ∈ s.marked
    · simp only [markObj, if_pos hm]
      exact ⟨Finset.Subset.refl _, hm, hB, hC, hX, fun _ hw => hw⟩
    · by_cases hwk : g.isWeak o = true
      · simp only [markObj, if_neg hm, if_pos hwk]
        refine ⟨Finset.subset_insert _ _, Finset.mem_insert_self _ _, ?_, ?_, ?_, ?_⟩
        · intro x hx
          rcases Finset.mem_insert.mp hx with rfl | hx'
          · exact ho
          · exact hB x hx'
        · intro w
          constructor
          · intro hw
            rcases List.mem_cons.mp hw with rfl | hw'
            · exact ⟨Finset.mem_insert_self _ _, hwk⟩
            · obtain ⟨h1, h2⟩ := (hC w).mp hw'
              exact ⟨Finset.mem_insert_of_mem h1, h2⟩
          · rintro ⟨h1, h2⟩
            rcases Finset.mem_insert.mp h1 with rfl | h1'
            · exact List.mem_cons_self _ _
            · exact List.mem_cons_of_mem _ ((hC w).mpr ⟨h1', h2⟩)
        · intro x hx hxP y hy
          rcases Finset.mem_insert.mp hx with rfl | hx'
          · rw [hW x ho hwk] at hy
            exact absurd hy (List.not_mem_nil _)
          · exact Finset.mem_insert_of_mem (hX x hx' hxP y hy)
        · intro w hw
          exact List.mem_cons_of_mem _ hw
      · simp only [markObj, if_neg hm, if_neg hwk]
        have hBs1 : Bounded g ⟨insert o s.marked, s.weaks⟩ := by
          intro x hx
          rcases Finset.mem_insert.mp hx with rfl | hx'
          · exact ho
          · exact hB x hx'
        have hCs1 : ChainSync g ⟨insert o s.marked, s.weaks⟩ := by
          intro w
          constructor
          · intro hw
            obtain ⟨h1, h2⟩ := (hC w).mp hw
            exact ⟨Finset.mem_insert_of_mem h1, h2⟩
          · rintro ⟨h1, h2⟩
            rcases Finset.mem_insert.mp h1 with rfl | h1'
            · exact absurd h2 hwk
            · exact (hC w).mpr ⟨h1', h2⟩
        have hXs1 : ClosedExcept g ⟨insert o s.marked, s.weaks⟩ (insert o P) := by
          intro x hx hxP y hy
          rcases Finset.mem_insert.mp hx with rfl | hx'
          · exact absurd (Set.mem_insert x P) hxP
          · exact Finset.mem_insert_of_mem
              (hX x hx' (fun hxp => hxP (Set.mem_insert_of_mem _ hxp)) y hy)
        have hUs1 : unmarkedCount g (insert o s.marked) < fuel := by
          have h1 : unmarkedCount g (insert o s.marked) < unmarkedCount g s.marked :=
            unmarkedCount_insert_lt g ho hm
          omega
        have haux : ∀ (l : List Nat) (t : MSt), (∀ x ∈ l, x < g.n) →
            Bounded g t → ChainSync g t → ClosedExcept g t (insert o P) →
            unmarkedCount g t.marked < fuel →
            t.marked ⊆ (l.foldl (fun a x => markObj g fuel x a) t).marked
            ∧ (∀ x ∈ l, x ∈ (l.foldl (fun a x => markObj g fuel x a) t).marked)
            ∧ Bounded g (l.foldl (fun a x => markObj g fuel x a) t)
            ∧ ChainSync g (l.foldl (fun a x => markObj g fuel x a) t)
            ∧ ClosedExcept g (l.foldl (fun a x => markObj g fuel x a) t) (insert o P)
            ∧ (∀ w ∈ t.weaks, w ∈ (l.foldl (fun a x => markObj g fuel x a) t).weaks) := by
          intro l
          induction l with
          | nil =>
            intro t _ hBt hCt hXt _
            exact ⟨Finset.Subset.refl _, by simp, hBt, hCt, hXt, fun _ hw => hw⟩
          | cons x xs ihl =>
            intro t hl hBt hCt hXt hUt
            have hx : x < g.n := hl x (List.mem_cons_self _ _)
            obtain ⟨h1m, h1x, h1B, h1C, h1X, h1w⟩ := ih x t (insert o P) hx hBt hCt hXt hUt
            have hUt' : unmarkedCount g (markObj g fuel x t).marked < fuel :=
              Nat.lt_of_le_of_lt (unmarkedCount_mono g h1m) hUt
            obtain ⟨h2m, h2x, h2B, h2C, h2X, h2w⟩ :=
              ihl (markObj g fuel x t) (fun y hy => hl y (List.mem_cons_of_mem _ hy))
                h1B h1C h1X hUt'
            rw [List.foldl_cons]
            refine ⟨h1m.trans h2m, ?_, h2B, h2C, h2X, fun w hw => h2w w (h1w w hw)⟩
            intro y hy
            rcases List.mem_cons.mp hy with rfl | hy'
            · exact h2m h1x
            · exact h2x y hy'
        obtain ⟨hfm, hfx, hfB, hfC, hfX, hfw⟩ :=
          haux (g.edges o) ⟨insert o s.marked, s.weaks⟩ (hE o ho) hBs1 hCs1 hXs1 hUs1
        refine ⟨(Finset.subset_insert _ _).trans hfm, hfm (Finset.mem_insert_self _ _),
          hfB, hfC, ?_, hfw⟩
        intro x hx hxP y hy
        by_cases hxo : x = o
        · subst hxo
          exact hfx y hy
        · exact hfX x hx (by
            intro hc
            rcases Set.mem_insert_iff.mp hc with h | h
            · exact hxo h
            · exact hxP h) y hy

/-- Every object marked by `gc_mark_object` was live to begin with: the
marked set only ever receives objects derivable by the `Live` rules. -/
theorem markObj_sound (g : Graph) (roots : List Nat) :
    ∀ (fuel o : Nat) (s : MSt), Live g roots o → (∀ x ∈ s.marked, Live g roots x) →
      ∀ x ∈ (markObj g fuel o s).marked, Live g roots x := by
  intro fuel
  induction fuel with
  | zero =>
    intro o s _ hs x hx
    exact hs x hx
  | succ fuel ih =>
    intro o s ho hs
    by_cases hm : o ∈ s.marked
    · simp only [markObj, if_pos hm]
      exact hs
    · by_cases hwk : g.isWeak o = true
      · simp only [markObj, if_neg hm, if_pos hwk]
        intro x hx
        rcases Finset.mem_insert.mp hx with rfl | hx'
        · exact ho
        · exact hs x hx'
      · simp only [markObj, if_neg hm, if_neg hwk]
        have hs1 : ∀ x ∈ (⟨insert o s.marked, s.weaks⟩ : MSt).marked, Live g roots x := by
          intro x hx
          rcases Finset.mem_insert.mp hx with rfl | hx'
          · exact ho
          · exact hs x hx'
        have haux : ∀ (l : List Nat) (t : MSt), (∀ y ∈ l, Live g roots y) →
            (∀ x ∈ t.marked, Live g roots x) →
            ∀ x ∈ (l.foldl (fun a y => markObj g fuel y a) t).marked, Live g roots x := by
          intro l
          induction l with
          | nil =>
            intro t _ ht
            exact ht
          | cons y ys ihl =>
            intro t hl ht
            rw [List.foldl_cons]
            exact ihl _ (fun z hz => hl z (List.mem_cons_of_mem _ hz))
              (ih y t (hl y (List.mem_cons_self _ _)) ht)
        exact haux (g.edges o) _ (fun y hy => Live.edge ho hy) hs1

/-- Folding the fixed-point step over one weak map's entry list: the
invariants are preserved, `j` only grows, a fold that does not grow `j`
leaves the state untouched and certifies that every entry with a marked
key already has a marked value, and a fold that grows `j` strictly grows
the marked set. -/
theorem weakEntriesFold_spec (g : Graph) (roots : List Nat)
    (hE : ∀ o, o < g.n → ∀ x ∈ g.edges o, x < g.n)
    (hW : ∀ o, o < g.n → g.isWeak o = true → g.edges o = [])
    (hENT : ∀ o, o < g.n → ∀ e ∈ g.entries o, e.1 < g.n ∧ wvalLT g.n e.2 = true)
    (w : Nat) (hwk : g.isWeak w = true) :
    ∀ (l : List (Nat × WVal)) (sj : MSt × Nat),
      (∀ e ∈ l, e ∈ g.entries w) →
      w ∈ sj.1.marked →
      Bounded g sj.1 → ChainSync g sj.1 → ClosedExcept g sj.1 ∅ →
      (∀ x ∈ sj.1.marked, Live g roots x) →
      sj.1.marked ⊆ (l.foldl (weakStep g (g.n + 1)) sj).1.marked
      ∧ Bounded g (l.foldl (weakStep g (g.n + 1)) sj).1
      ∧ ChainSync g (l.foldl (weakStep g (g.n + 1)) sj).1
      ∧ ClosedExcept g (l.foldl (weakStep g (g.n + 1)) sj).1 ∅
      ∧ (∀ x ∈ (l.foldl (weakStep g (g.n + 1)) sj).1.marked, Live g roots x)
      ∧ (∀ u ∈ sj.1.weaks, u ∈ (l.foldl (weakStep g (g.n + 1)) sj).1.weaks)
      ∧ sj.2 ≤ (l.foldl (weakStep g (g.n + 1)) sj).2
      ∧ ((l.foldl (weakStep g (g.n + 1)) sj).2 = sj.2 →
          (l.foldl (weakStep g (g.n + 1)) sj).1 = sj.1
          ∧ ∀ e ∈ l, e.1 ∈ sj.1.marked → ∀ vo, e.2 = WVal.obj vo → vo ∈ sj.1.marked)
      ∧ (sj.2 < (l.foldl (weakStep g (g.n + 1)) sj).2 →
          sj.1.marked.card < (l.foldl (weakStep g (g.n + 1)) sj).1.marked.card) := by
  intro l
  induction l with
  | nil =>
    intro sj _ _ hB hC hX hs
    exact ⟨Finset.Subset.refl _, hB, hC, hX, hs, fun _ h => h, Nat.le_refl _,
      fun _ => ⟨rfl, by simp⟩, fun h => absurd h (lt_irrefl _)⟩
  | cons e es ihl =>
    intro sj hl hwm hB hC hX hs
    rw [List.foldl_cons]
    by_cases hk : e.1 ∈ sj.1.marked
    · rcases he : e.2 with _ | vo
      · have hstep : weakStep g (g.n + 1) sj e = sj := by
          simp [weakStep, hk, he]
        rw [hstep]
        obtain ⟨m1, m2, m3, m4, m5, m6, m7, m8, m9⟩ :=
          ihl sj (fun x hx => hl x (List.mem_cons_of_mem _ hx)) hwm hB hC hX hs
        refine ⟨m1, m2, m3, m4, m5, m6, m7, ?_, m9⟩
        intro hj
        obtain ⟨hst, hall⟩ := m8 hj
        refine ⟨hst, ?_⟩
        intro e' he' hk' vo hvo
        rcases List.mem_cons.mp he' with rfl | he''
        · rw [he] at hvo
          exact absurd hvo (by simp)
        · exact hall e' he'' hk' vo hvo
      · by_cases hv : vo ∈ sj.1.marked
        · have hstep : weakStep g (g.n + 1) sj e = sj := by
            simp [weakStep, hk, he, hv]
          rw [hstep]
          obtain ⟨m1, m2, m3, m4, m5, m6, m7, m8, m9⟩ :=
            ihl sj (fun x hx => hl x (List.mem_cons_of_mem _ hx)) hwm hB hC hX hs
          refine ⟨m1, m2, m3, m4, m5, m6, m7, ?_, m9⟩
          intro hj
          obtain ⟨hst, hall⟩ := m8 hj
          refine ⟨hst, ?_⟩
          intro e' he' hk' vo' hvo
          rcases List.mem_cons.mp he' with rfl | he''
          · rw [he] at hvo
            injection hvo with hvo'
            subst hvo'
            exact hv
          · exact hall e' he'' hk' vo' hvo
        · have hvn : vo < g.n := by
            have h2 := (hENT w (hB w hwm) e (hl e (List.mem_cons_self _ _))).2
            rw [he] at h2
            exact wvalLT_obj h2
          have hmem' : (e.1, WVal.obj vo) ∈ g.entries w := by
            rw [← he]
            exact hl e (List.mem_cons_self _ _)
          have hLv : Live g roots vo :=
            Live.weakv (hs w hwm) hwk hmem' (hs e.1 hk)
          have hU : unmarkedCount g sj.1.marked < g.n + 1 :=
            Nat.lt_succ_of_le (unmarkedCount_le g _)
          obtain ⟨k1, k2, k3, k4, k5, k6⟩ :=
            markObj_spec g hE hW (g.n + 1) vo sj.1 ∅ hvn hB hC hX hU
          have hsnd : ∀ x ∈ (markObj g (g.n + 1) vo sj.1).marked, Live g roots x :=
            markObj_sound g roots (g.n + 1) vo sj.1 hLv hs
          have hstep : weakStep g (g.n + 1) sj e
              = (markObj g (g.n + 1) vo sj.1, sj.2 + 1) := by
            simp [weakStep, hk, he, hv]
          rw [hstep]
          obtain ⟨m1, m2, m3, m4, m5, m6, m7, m8, m9⟩ :=
            ihl (markObj g (g.n + 1) vo sj.1, sj.2 + 1)
              (fun x hx => hl x (List.mem_cons_of_mem _ hx)) (k1 hwm) k3 k4 k5 hsnd
          have hcard : sj.1.marked.card < (markObj g (g.n + 1) vo sj.1).marked.card :=
            Finset.card_lt_card ((Finset.ssubset_iff_of_subset k1).mpr ⟨vo, k2, hv⟩)
          refine ⟨k1.trans m1, m2, m3, m4, m5, fun u hu => m6 u (k6 u hu),
            (Nat.le_succ _).trans m7, ?_, ?_⟩
          · intro hj
            rw [hj] at m7
            omega
          · intro _
            exact Nat.lt_of_lt_of_le hcard (Finset.card_le_card m1)
    · have hstep : weakStep g (g.n + 1) sj e = sj := by
        simp [weakStep, hk]
      rw [hstep]
      obtain ⟨m1, m2, m3, m4, m5, m6, m7, m8, m9⟩ :=
        ihl sj (fun x hx => hl x (List.mem_cons_of_mem _ hx)) hwm hB hC hX hs
      refine ⟨m1, m2, m3, m4, m5, m6, m7, ?_, m9⟩
      intro hj
      obtain ⟨hst, hall⟩ := m8 hj
      refine ⟨hst, ?_⟩
      intro e' he' hk' vo hvo
      rcases List.mem_cons.mp he' with rfl | he''
      · exact absurd hk' hk
      · exact hall e' he'' hk' vo hvo

/-- One full walk of the weak-map chain (the inner `while` of the
fixed-point loop): same properties as `weakEntriesFold_spec`, with the
zero-growth certificate quantified over every map of the walked chain
snapshot. -/
theorem weakChainPass_spec (g : Graph) (roots : List Nat)
    (hE : ∀ o, o < g.n → ∀ x ∈ g.edges o, x < g.n)
    (hW : ∀ o, o < g.n → g.isWeak o = true → g.edges o = [])
    (hENT : ∀ o, o < g.n → ∀ e ∈ g.entries o, e.1 < g.n ∧ wvalLT g.n e.2 = true) :
    ∀ (ws : List Nat) (sj : MSt × Nat),
      (∀ u ∈ ws, u ∈ sj.1.marked ∧ g.isWeak u = true) →
      Bounded g sj.1 → ChainSync g sj.1 → ClosedExcept g sj.1 ∅ →
      (∀ x ∈ sj.1.marked, Live g roots x) →
      sj.1.marked ⊆ (weakChainPass g (g.n + 1) ws sj).1.marked
      ∧ Bounded g (weakChainPass g (g.n + 1) ws sj).1
      ∧ ChainSync g (weakChainPass g (g.n + 1) ws sj).1
      ∧ ClosedExcept g (weakChainPass g (g.n + 1) ws sj).1 ∅
      ∧ (∀ x ∈ (weakChainPass g (g.n + 1) ws sj).1.marked, Live g roots x)
      ∧ (∀ u ∈ sj.1.weaks, u ∈ (weakChainPass g (g.n + 1) ws sj).1.weaks)
      ∧ sj.2 ≤ (weakChainPass g (g.n + 1) ws sj).2
      ∧ ((weakChainPass g (g.n + 1) ws sj).2 = sj.2 →
          (weakChainPass g (g.n + 1) ws sj).1 = sj.1
          ∧ ∀ u ∈ ws, ∀ e ∈ g.entries u, e.1 ∈ sj.1.marked →
              ∀ vo, e.2 = WVal.obj vo → vo ∈ sj.1.marked)
      ∧ (sj.2 < (weakChainPass g (g.n + 1) ws sj).2 →
          sj.1.marked.card < (weakChainPass g (g.n + 1) ws sj).1.marked.card) := by
  intro ws
  induction ws with
  | nil =>
    intro sj _ hB hC hX hs
    exact ⟨Finset.Subset.refl _, hB, hC, hX, hs, fun _ h => h, Nat.le_refl _,
      fun _ => ⟨rfl, by simp⟩, fun h => absurd h (lt_irrefl _)⟩
  | cons w ws' ihw =>
    intro sj hws hB hC hX hs
    have hwm : w ∈ sj.1.marked := (hws w (List.mem_cons_self _ _)).1
    have hwk : g.isWeak w = true := (hws w (List.mem_cons_self _ _)).2
    obtain ⟨f1, f2, f3, f4, f5, f6, f7, f8, f9⟩ :=
      weakEntriesFold_spec g roots hE hW hENT w hwk (g.entries w) sj
        (fun _ h => h) hwm hB hC hX hs
    have hws' : ∀ u ∈ ws', u ∈ ((g.entries w).foldl (weakStep g (g.n + 1)) sj).1.marked
        ∧ g.isWeak u = true :=
      fun u hu => ⟨f1 (hws u (List.mem_cons_of_mem _ hu)).1,
        (hws u (List.mem_cons_of_mem _ hu)).2⟩
    obtain ⟨m1, m2, m3, m4, m5, m6, m7, m8, m9⟩ :=
      ihw ((g.entries w).foldl (weakStep g (g.n + 1)) sj) hws' f2 f3 f4 f5
    simp only [weakChainPass]
    refine ⟨f1.trans m1, m2, m3, m4, m5, fun u hu => m6 u (f6 u hu), f7.trans m7, ?_, ?_⟩
    · intro hj
      have hin : ((g.entries w).foldl (weakStep g (g.n + 1)) sj).2 = sj.2 :=
        Nat.le_antisymm (hj ▸ m7) f7
      obtain ⟨hst1, hall1⟩ := f8 hin
      have hj2 : (weakChainPass g (g.n + 1) ws'
          ((g.entries w).foldl (weakStep g (g.n + 1)) sj)).2
          = ((g.entries w).foldl (weakStep g (g.n + 1)) sj).2 := by
        rw [hin, hj]
      obtain ⟨hst2, hall2⟩ := m8 hj2
      refine ⟨hst2.trans hst1, ?_⟩
      intro u hu e hee hke vo hvo
      rcases List.mem_cons.mp hu with rfl | hu'
      · exact hall1 e hee hke vo hvo
      · have := hall2 u hu' e hee
        rw [hst1] at this
        exact this hke vo hvo
    · intro hj
      rcases Nat.lt_or_ge sj.2 ((g.entries w).foldl (weakStep g (g.n + 1)) sj).2 with h | h
      · exact Nat.lt_of_lt_of_le (f9 h) (Finset.card_le_card m1)
      · have hin : ((g.entries w).foldl (weakStep g (g.n + 1)) sj).2 = sj.2 :=
          Nat.le_antisymm h f7
        obtain ⟨hst1, _⟩ := f8 hin
        have hj2 : ((g.entries w).foldl (weakStep g (g.n + 1)) sj).2
            < (weakChainPass g (g.n + 1) ws'
                ((g.entries w).foldl (weakStep g (g.n + 1)) sj)).2 := by
          rw [hin]
          exact hj
        have := m9 hj2
        rw [hst1] at this
        exact this

/-- The `do ... while (j > 0)` loop: `g.n + 1` iterations always reach a
pass that marks nothing new, and the returned state is a fixed point of
the pass. -/
theorem weakLoop_spec (g : Graph) (roots : List Nat)
    (hE : ∀ o, o < g.n → ∀ x ∈ g.edges o, x < g.n)
    (hW : ∀ o, o < g.n → g.isWeak o = true → g.edges o = [])
    (hENT : ∀ o, o < g.n → ∀ e ∈ g.entries o, e.1 < g.n ∧ wvalLT g.n e.2 = true) :
    ∀ (lf : Nat) (s : MSt),
      Bounded g s → ChainSync g s → ClosedExcept g s ∅ →
      (∀ x ∈ s.marked, Live g roots x) →
      g.n + 1 ≤ lf + s.marked.card →
      s.marked ⊆ (weakLoop g (g.n + 1) lf s).marked
      ∧ Bounded g (weakLoop g (g.n + 1) lf s)
      ∧ ChainSync g (weakLoop g (g.n + 1) lf s)
      ∧ ClosedExcept g (weakLoop g (g.n + 1) lf s) ∅
      ∧ (∀ x ∈ (weakLoop g (g.n + 1) lf s).marked, Live g roots x)
      ∧ weakPass g (g.n + 1) (weakLoop g (g.n + 1) lf s)
          = (weakLoop g (g.n + 1) lf s, 0) := by
  intro lf
  induction lf with
  | zero =>
    intro s hB _ _ _ hle
    have hcard := card_le_of_bounded g hB
    exfalso
    omega
  | succ lf ihlf =>
    intro s hB hC hX hs hle
    have hws : ∀ u ∈ s.weaks, u ∈ s.marked ∧ g.isWeak u = true :=
      fun u hu => (hC u).mp hu
    obtain ⟨p1, p2, p3, p4, p5, p6, p7, p8, p9⟩ :=
      weakChainPass_spec g roots hE hW hENT s.weaks (s, 0) hws hB hC hX hs
    by_cases hj : (weakPass g (g.n + 1) s).2 = 0
    · have hj0 : (weakChainPass g (g.n + 1) s.weaks (s, 0)).2 = (s, 0).2 := hj
      obtain ⟨hst, _⟩ := p8 hj0
      simp only [weakLoop, if_pos hj]
      have hst' : (weakPass g (g.n + 1) s).1 = s := hst
      rw [hst']
      exact ⟨Finset.Subset.refl _, hB, hC, hX, hs, Prod.ext hst' hj⟩
    · have hjlt : ((s, 0) : MSt × Nat).2 < (weakPass g (g.n + 1) s).2 :=
        Nat.pos_of_ne_zero hj
      have hcard : s.marked.card < (weakPass g (g.n + 1) s).1.marked.card := p9 hjlt
      obtain ⟨q1, q2, q3, q4, q5, q6⟩ :=
        ihlf (weakPass g (g.n + 1) s).1 p2 p3 p4 p5 (by
          have hb2 := card_le_of_bounded g p2
          omega)
      simp only [weakLoop, if_neg hj]
      exact ⟨p1.trans q1, q2, q3, q4, q5, q6⟩

/-- The root scan of `gc_mark_phase` marks every root, starting from the
cleared mark state, and establishes all the marking invariants. -/
theorem markRoots_spec (g : Graph) (roots : List Nat)
    (hE : ∀ o, o < g.n → ∀ x ∈ g.edges o, x < g.n)
    (hW : ∀ o, o < g.n → g.isWeak o = true → g.edges o = [])
    (hR : ∀ r ∈ roots, r < g.n) :
    Bounded g (markRoots g roots) ∧ ChainSync g (markRoots g roots)
    ∧ ClosedExcept g (markRoots g roots) ∅
    ∧ (∀ r ∈ roots, r ∈ (markRoots g roots).marked)
    ∧ (∀ x ∈ (markRoots g roots).marked, Live g roots x) := by
  have haux : ∀ (l : List Nat) (s : MSt), (∀ r ∈ l, r < g.n) → (∀ r ∈ l, r ∈ roots) →
      Bounded g s → ChainSync g s → ClosedExcept g s ∅ →
      (∀ x ∈ s.marked, Live g roots x) →
      s.marked ⊆ (l.foldl (fun a r => markObj g (g.n + 1) r a) s).marked
      ∧ Bounded g (l.foldl (fun a r => markObj g (g.n + 1) r a) s)
      ∧ ChainSync g (l.foldl (fun a r => markObj g (g.n + 1) r a) s)
      ∧ ClosedExcept g (l.foldl (fun a r => markObj g (g.n + 1) r a) s) ∅
      ∧ (∀ r ∈ l, r ∈ (l.foldl (fun a r => markObj g (g.n + 1) r a) s).marked)
      ∧ (∀ x ∈ (l.foldl (fun a r => markObj g (g.n + 1) r a) s).marked,
          Live g roots x) := by
    intro l
    induction l with
    | nil =>
      intro s _ _ hB hC hX hs
      exact ⟨Finset.Subset.refl _, hB, hC, hX, by simp, hs⟩
    | cons r rs ihl =>
      intro s hl hlr hB hC hX hs
      have hrn : r < g.n := hl r (List.mem_cons_self _ _)
      obtain ⟨k1, k2, k3, k4, k5, k6⟩ :=
        markObj_spec g hE hW (g.n + 1) r s ∅ hrn hB hC hX
          (Nat.lt_succ_of_le (unmarkedCount_le g _))
      have hsnd := markObj_sound g roots (g.n + 1) r s
        (Live.root (hlr r (List.mem_cons_self _ _))) hs
      obtain ⟨m1, m2, m3, m4, m5, m6⟩ :=
        ihl (markObj g (g.n + 1) r s)
          (fun y hy => hl y (List.mem_cons_of_mem _ hy))
          (fun y hy => hlr y (List.mem_cons_of_mem _ hy)) k3 k4 k5 hsnd
      rw [List.foldl_cons]
      refine ⟨k1.trans m1, m2, m3, m4, ?_, m6⟩
      intro r' hr'
      rcases List.mem_cons.mp hr' with rfl | hr''
      · exact m1 k2
      · exact m5 r' hr''
  have h0B : Bounded g ⟨∅, []⟩ := fun x hx => absurd hx (Finset.not_mem_empty x)
  have h0C : ChainSync g ⟨∅, []⟩ := by
    intro w
    constructor
    · intro h
      exact absurd h (List.not_mem_nil w)
    · rintro ⟨h, _⟩
      exact absurd h (Finset.not_mem_empty w)
  have h0X : ClosedExcept g ⟨∅, []⟩ ∅ := fun x hx => absurd hx (Finset.not_mem_empty x)
  have h0s : ∀ x ∈ (⟨∅, []⟩ : MSt).marked, Live g roots x :=
    fun x hx => absurd hx (Finset.not_mem_empty x)
  obtain ⟨_, m2, m3, m4, m5, m6⟩ := haux roots ⟨∅, []⟩ hR (fun _ h => h) h0B h0C h0X h0s
  exact ⟨m2, m3, m4, m5, m6⟩

/-- Correctness of `gc_mark_phase`: the weak chain of the final state
holds exactly the marked weak maps, and an object ends up marked iff it
is live in the sense of the ephemeron least fixed point. -/
theorem markPhase_spec (g : Graph) (roots : List Nat)
    (hE : ∀ o, o < g.n → ∀ x ∈ g.edges o, x < g.n)
    (hW : ∀ o, o < g.n → g.isWeak o = true → g.edges o = [])
    (hENT : ∀ o, o < g.n → ∀ e ∈ g.entries o, e.1 < g.n ∧ wvalLT g.n e.2 = true)
    (hR : ∀ r ∈ roots, r < g.n) :
    ChainSync g (markPhase g roots)
    ∧ (∀ o, o ∈ (markPhase g roots).marked ↔ Live g roots o) := by
  obtain ⟨hB0, hC0, hX0, hroots0, hs0⟩ := markRoots_spec g roots hE hW hR
  obtain ⟨q1, q2, q3, q4, q5, q6⟩ :=
    weakLoop_spec g roots hE hW hENT (g.n + 1) (markRoots g roots) hB0 hC0 hX0 hs0
      (Nat.le_add_right _ _)
  have hfixprop : ∀ u ∈ (markPhase g roots).weaks, ∀ e ∈ g.entries u,
      e.1 ∈ (markPhase g roots).marked → ∀ vo, e.2 = WVal.obj vo →
      vo ∈ (markPhase g roots).marked := by
    have hws : ∀ u ∈ (markPhase g roots).weaks,
        u ∈ (markPhase g roots).marked ∧ g.isWeak u = true :=
      fun u hu => (q3 u).mp hu
    obtain ⟨_, _, _, _, _, _, _, p8, _⟩ :=
      weakChainPass_spec g roots hE hW hENT (markPhase g roots).weaks
        ((markPhase g roots), 0) hws q2 q3 q4 q5
    have hj : (weakChainPass g (g.n + 1) (markPhase g roots).weaks
        ((markPhase g roots), 0)).2 = ((markPhase g roots), 0).2 :=
      congrArg Prod.snd q6
    exact (p8 hj).2
  refine ⟨q3, fun o => ⟨fun h => q5 o h, fun hl => ?_⟩⟩
  induction hl with
  | root h => exact q1 (hroots0 _ h)
  | edge ho hmem ih => exact q4 _ ih (Set.not_mem_empty _) _ hmem
  | weakv hw hwk hmem hk ihw ihk =>
    exact hfixprop _ ((q3 _).mpr ⟨ihw, hwk⟩) _ hmem ihk _ rfl

/-- Claim C1: for every weak map `W` (itself reachable) with entry
`(k, v)` where `v` is a heap object, after `collect()` the value `v` is
retained and the entry kept in `W` iff the key `k` is marked reachable
through paths not passing through `W`'s value slot for `k` (the `Live`
least fixed point of spec §4.5); the mark phase computes exactly that
fixed point by repeated passes over the weak-map chain, each pass marking
the value of every entry whose key is already marked, until a full pass
marks zero new objects; and the sweep deletes every entry of a chained
weak map whose key is unmarked. -/
theorem weak_key_liveness (g : Graph) (roots : List Nat)
    (hE : ∀ o, o < g.n → ∀ x ∈ g.edges o, x < g.n)
    (hW : ∀ o, o < g.n → g.isWeak o = true → g.edges o = [])
    (hENT : ∀ o, o < g.n → ∀ e ∈ g.entries o, e.1 < g.n ∧ wvalLT g.n e.2 = true)
    (hR : ∀ r ∈ roots, r < g.n)
    (w k vo : Nat) (hwk : g.isWeak w = true) (hwl : Live g roots w)
    (hmem : (k, WVal.obj vo) ∈ g.entries w) :
    (∀ o, o ∈ (markPhase g roots).marked ↔ Live g roots o)
    ∧ (∀ e ∈ g.entries w, e.1 ∉ (markPhase g roots).marked →
        e ∉ purgeWeakEntries g (markPhase g roots) w)
    ∧ (((k, WVal.obj vo) ∈ purgeWeakEntries g (markPhase g roots) w
        ∧ retained g roots vo) ↔ Live g roots k) := by
  obtain ⟨hchain, hiff⟩ := markPhase_spec g roots hE hW hENT hR
  have hFw : w ∈ (markPhase g roots).marked := (hiff w).mpr hwl
  have hFweaks : w ∈ (markPhase g roots).weaks := (hchain w).mpr ⟨hFw, hwk⟩
  refine ⟨hiff, ?_, ?_⟩
  · intro e _ hke hcontra
    rw [purgeWeakEntries, if_pos hFweaks] at hcontra
    exact hke (of_decide_eq_true (List.mem_filter.mp hcontra).2)
  · constructor
    · rintro ⟨hin, _⟩
      rw [purgeWeakEntries, if_pos hFweaks] at hin
      exact (hiff k).mp (of_decide_eq_true (List.mem_filter.mp hin).2)
    · intro hlk
      have hkM : k ∈ (markPhase g roots).marked := (hiff k).mpr hlk
      refine ⟨?_, (hiff vo).mpr (Live.weakv hwl hwk hmem hlk)⟩
      rw [purgeWeakEntries, if_pos hFweaks]
      exact List.mem_filter.mpr ⟨hmem, decide_eq_true hkM⟩

/-- The concrete four-object heap for the C1 witness: object 0 is a weak
map with entries `{1 ↦ 2, 3 ↦ 3}`, no object has ordinary out-edges, and
the roots are the map itself and the key 1. -/
def gW : Graph :=
  ⟨4, fun _ => [], fun o => o == 0,
   fun o => if o = 0 then [(1, WVal.obj 2), (3, WVal.obj 3)] else []⟩

/-- Witness for C1 on `gW`: key 1 is a root, so after collection the
entry `(1, 2)` survives in the weak map and its value 2 is retained,
while the entry `(3, 3)` (whose key 3 is unreachable) is purged. -/
theorem weak_key_liveness_witness :
    ((1, WVal.obj 2) ∈ purgeWeakEntries gW (markPhase gW [0, 1]) 0
      ∧ retained gW [0, 1] 2)
    ∧ (3, WVal.obj 3) ∉ purgeWeakEntries gW (markPhase gW [0, 1]) 0 := by
  have h := weak_key_liveness gW [0, 1]
    (by decide) (by decide) (by decide) (by decide)
    0 1 2 (by decide) (Live.root (by decide)) (by decide)
  exact ⟨h.2.2.mpr (Live.root (by decide)),
    h.2.1 (3, WVal.obj 3) (by decide) (by decide)⟩

/-! ### Finalization, the sweep phase as a whole, and `pic_gc` -/

/-- The object-variant tags (`PIC_TYPE_...`) as matched by
`gc_finalize_object` (gc.c:390-445). -/
inductive Tp where
  | pair | vector | blob | string | env | data | dict | symbol | weak | irep
  | cxt | port | error | id | record | cp | func
deriving DecidableEq

/-- The externally visible release actions a finalizer can take. -/
inductive FinAct where
  | freeData | ropeDecref | destroyHash | dtorCall | irepDecref
deriving DecidableEq

/-- `gc_finalize_object` (gc.c:389-445): the per-variant release of
secondary storage.  `hasDtor` records whether the DATA variant's type has
a `dtor` hook (gc.c:410).  The SYMBOL arm does nothing — the oblist purge
is done lazily by the sweep phase, as the TODO at gc.c:420 records. -/
def gc_finalize_object (hasDtor : Bool) : Tp → List FinAct
  | .vector => [.freeData]
  | .blob => [.freeData]
  | .string => [.ropeDecref]
  | .env => [.destroyHash]
  | .data => if hasDtor then [.dtorCall] else []
  | .dict => [.destroyHash]
  | .weak => [.destroyHash]
  | .irep => [.irepDecref]
  | _ => []

/-- The symbol-table purge of `gc_sweep_phase` (gc.c:510-518): delete
every oblist entry whose symbol pointer is non-null (`sym &&`) and
unmarked; null entries are kept. -/
def purgeOblist (marked : Finset Nat) (ob : List (String × Option Nat)) :
    List (String × Option Nat) :=
  ob.filter (fun e => match e.2 with
    | none => true
    | some sym => decide (sym ∈ marked))

/-- Modelled from the spec: the parts of the sweep that live in the
back-end files — `PAGE_UNITS`, the `PIC_PAGE_REQUEST_THRESHOLD` macro,
`gc_sweep_page` (abstracted to the number of live units it reports for a
page) and the page that `heap_morecore` would add. -/
structure SweepEnv where
  pageUnits : Nat
  threshold : Nat → Nat
  sweepPageLive : Nat → Nat
  newPage : Nat

/-- The interpreter state touched by `pic_gc`: the object graph, the
root set (arena, stacks, globals, ...), the symbol table `pic->oblist`,
the heap page list and the `pic->gc_enable` flag. -/
structure FullSt where
  g : Graph
  roots : List Nat
  oblist : List (String × Option Nat)
  pages : List Nat
  gc_enable : Bool

/-- Observable events of one collection, recording the order in which
the sweep steps run. -/
inductive Ev where
  | purgeWeaksEv : Ev
  | purgeSymsEv : Ev
  | sweepPageEv (p : Nat) : Ev
  | morecoreEv : Ev
deriving DecidableEq

/-- The page-sweep accumulation of gc.c:520-525: `inuse` sums
`gc_sweep_page(page)` over the page list, `total` adds `PAGE_UNITS` per
page. -/
def sweepPagesAcc (E : SweepEnv) (pages : List Nat) : Nat × Nat :=
  pages.foldl (fun a p => (a.1 + E.sweepPageLive p, a.2 + E.pageUnits)) (0, 0)

/-- `gc_sweep_phase` (gc.c:485-530): purge the weak-map entries of every
chained weak map, purge the symbol table, sweep all pages accumulating
`inuse` and `total`, then call `heap_morecore` once iff
`PIC_PAGE_REQUEST_THRESHOLD(total) <= inuse`. -/
def gc_sweep_phase (E : SweepEnv) (s : FullSt) (F : MSt) : FullSt × List Ev :=
  let entries2 := purgeWeakEntries s.g F
  let ob2 := purgeOblist F.marked s.oblist
  let acc := sweepPagesAcc E s.pages
  let pages2 := if E.threshold acc.2 ≤ acc.1 then E.newPage :: s.pages else s.pages
  (⟨{ s.g with entries := entries2 }, s.roots, ob2, pages2, s.gc_enable⟩,
   Ev.purgeWeaksEv :: Ev.purgeSymsEv :: (s.pages.map Ev.sweepPageEv
     ++ if E.threshold acc.2 ≤ acc.1 then [Ev.morecoreEv] else []))

/-- `pic_gc` (gc.c:532-543): return immediately when the GC is disabled;
otherwise run `gc_init`, the mark phase and the sweep phase.  `gc_init`
is modelled from the spec as the back-end-specific preparation (it
clears the side bitmap in the bitmap back-end and nothing else). -/
def pic_gc (E : SweepEnv) (gcInit : FullSt → FullSt) (s : FullSt) : FullSt × List Ev :=
  if s.gc_enable = false then (s, [])
  else gc_sweep_phase E (gcInit s) (markPhase (gcInit s).g (gcInit s).roots)

theorem sweepPagesAcc_eq (E : SweepEnv) :
    ∀ (l : List Nat) (a b : Nat),
      l.foldl (fun acc p => (acc.1 + E.sweepPageLive p, acc.2 + E.pageUnits)) (a, b)
        = (a + (l.map E.sweepPageLive).sum, b + l.length * E.pageUnits) := by
  intro l
  induction l with
  | nil =>
    intro a b
    simp
  | cons p ps ihl =>
    intro a b
    rw [List.foldl_cons, ihl]
    refine Prod.ext ?_ ?_
    · simp [Nat.add_assoc]
    · simp
      ring

/-- Claim C6: within one `collect()`, the sweep performs its steps in
the strict order weak-entry purge, symbol-table purge, page sweep,
growth check; and the growth check requests exactly one more page iff
the configured threshold of the total unit count is at most the in-use
unit count accumulated by the page sweep. -/
theorem sweep_order_and_growth (E : SweepEnv) (s : FullSt) (F : MSt) :
    ((gc_sweep_phase E s F).2
      = Ev.purgeWeaksEv :: Ev.purgeSymsEv :: (s.pages.map Ev.sweepPageEv
          ++ if E.threshold (s.pages.length * E.pageUnits)
              ≤ (s.pages.map E.sweepPageLive).sum then [Ev.morecoreEv] else []))
    ∧ (Ev.morecoreEv ∈ (gc_sweep_phase E s F).2 ↔
        E.threshold (s.pages.length * E.pageUnits) ≤ (s.pages.map E.sweepPageLive).sum)
    ∧ ((gc_sweep_phase E s F).1.pages.length
        = s.pages.length + (if E.threshold (s.pages.length * E.pageUnits)
            ≤ (s.pages.map E.sweepPageLive).sum then 1 else 0))
    ∧ (gc_sweep_phase E s F).1.oblist = purgeOblist F.marked s.oblist
    ∧ (gc_sweep_phase E s F).1.g.entries = purgeWeakEntries s.g F := by
  have hacc : sweepPagesAcc E s.pages
      = ((s.pages.map E.sweepPageLive).sum, s.pages.length * E.pageUnits) := by
    have h := sweepPagesAcc_eq E s.pages 0 0
    simpa [sweepPagesAcc] using h
  by_cases hgrow : E.threshold (s.pages.length * E.pageUnits)
      ≤ (s.pages.map E.sweepPageLive).sum
  · refine ⟨?_, ?_, ?_, rfl, rfl⟩
    · simp [gc_sweep_phase, hacc, hgrow]
    · simp [gc_sweep_phase, hacc, hgrow, Ev.morecoreEv]
    · simp [gc_sweep_phase, hacc, hgrow]
  · refine ⟨?_, ?_, ?_, rfl, rfl⟩
    · simp [gc_sweep_phase, hacc, hgrow]
    · simp [gc_sweep_phase, hacc, hgrow]
    · simp [gc_sweep_phase, hacc, hgrow]

/-- Claim C7: when the GC is disabled, `collect()` returns immediately
without marking or sweeping, leaving the heap graph, roots/arena, symbol
table and page list entirely unchanged (and the weak chain untouched,
since no mark state is created); when enabled it runs `gc_init`, then
the mark phase, then the sweep phase on the mark result. -/
theorem collect_phases (E : SweepEnv) (I : FullSt → FullSt) (s : FullSt) :
    (s.gc_enable = false →
      pic_gc E I s = (s, [])
      ∧ (pic_gc E I s).1.g = s.g
      ∧ (pic_gc E I s).1.roots = s.roots
      ∧ (pic_gc E I s).1.oblist = s.oblist
      ∧ (pic_gc E I s).1.pages = s.pages)
    ∧ (s.gc_enable = true →
      pic_gc E I s = gc_sweep_phase E (I s) (markPhase (I s).g (I s).roots)) := by
  constructor
  · intro h
    simp [pic_gc, h]
  · intro h
    simp [pic_gc, h]

/-- A small concrete sweep environment for witnesses. -/
def sE : SweepEnv := ⟨4, fun t => t, fun _ => 0, 7⟩

/-- A concrete state with the GC disabled. -/
def offSt : FullSt := ⟨gW, [0, 1], [], [], false⟩

/-- The same state with the GC enabled. -/
def onSt : FullSt := ⟨gW, [0, 1], [], [], true⟩

/-- Witness for C7 at the two concrete states: disabled leaves the state
untouched with an empty event trace; enabled runs mark then sweep. -/
theorem collect_phases_witness :
    pic_gc sE id offSt = (offSt, [])
    ∧ pic_gc sE id onSt = gc_sweep_phase sE onSt (markPhase onSt.g onSt.roots) :=
  ⟨((collect_phases sE id offSt).1 rfl).1, (collect_phases sE id onSt).2 rfl⟩

/-! ### Symbol interning and the lazy oblist purge -/

/-- Symbol-table state for interning.  Modelled from the spec: symbol
interning (`pic_intern`, outside the source tree) looks the name up in
the oblist and, when absent, allocates a fresh symbol object and records
it; `nextId` is the allocator's supply of fresh object identities, so
every previously allocated object has a smaller identity. -/
structure SymSt where
  oblist : List (String × Option Nat)
  nextId : Nat

/-- Look a name up in the oblist (first entry carrying a symbol). -/
def oblistLookup (ob : List (String × Option Nat)) (name : String) : Option Nat :=
  ob.findSome? (fun e => if e.1 = name then e.2 else none)

/-- Modelled from the spec: `intern` returns the recorded symbol object
when the name is present, otherwise allocates a fresh symbol object and
records it under the name. -/
def intern (st : SymSt) (name : String) : SymSt × Nat :=
  match oblistLookup st.oblist name with
  | some sym => (st, sym)
  | none => (⟨(name, some st.nextId) :: st.oblist, st.nextId + 1⟩, st.nextId)

/-- Claim C8: after `collect()`, every interned symbol whose object was
unmarked at sweep time is absent from the oblist; the purge happens in
the sweep phase, not in the symbol's finalizer (which does nothing); and
a later lookup of the same name therefore allocates a fresh symbol
object, distinct from the dead one. -/
theorem symbol_purge (marked : Finset Nat) (ob : List (String × Option Nat))
    (name : String) (oldSym nid : Nat) (hasDtor : Bool)
    (_hmem : (name, some oldSym) ∈ ob)
    (hdead : oldSym ∉ marked)
    (huniq : ∀ v, (name, v) ∈ ob → v = some oldSym)
    (halloc : oldSym < nid) :
    ((name, some oldSym) ∉ purgeOblist marked ob)
    ∧ (∀ nm sym, (nm, some sym) ∈ purgeOblist marked ob → sym ∈ marked)
    ∧ gc_finalize_object hasDtor Tp.symbol = []
    ∧ (intern ⟨purgeOblist marked ob, nid⟩ name).2 = nid
    ∧ (intern ⟨purgeOblist marked ob, nid⟩ name).2 ≠ oldSym := by
  have hlook : oblistLookup (purgeOblist marked ob) name = none := by
    rw [oblistLookup, List.findSome?_eq_none_iff]
    intro e he
    have heob : e ∈ ob := List.mem_of_mem_filter he
    by_cases hename : e.1 = name
    · exfalso
      have hev : e.2 = some oldSym := by
        apply huniq e.2
        rw [← hename]
        exact heob
      have hkeep := (List.mem_filter.mp he).2
      rw [hev] at hkeep
      simp at hkeep
      exact hdead hkeep
    · simp [hename]
  refine ⟨?_, ?_, rfl, ?_, ?_⟩
  · intro hc
    have hkeep := (List.mem_filter.mp hc).2
    simp at hkeep
    exact hdead hkeep
  · intro nm sym h
    have hkeep := (List.mem_filter.mp h).2
    simp at hkeep
    exact hkeep
  · rw [intern, hlook]
  · rw [intern, hlook]
    show nid ≠ oldSym
    omega

/-- Witness for C8: with only object 1 marked, the entry for "foo"
(symbol 3) is purged while "bar" (symbol 1) is kept, and re-interning
"foo" yields the fresh symbol 4 ≠ 3. -/
theorem symbol_purge_witness :
    ("foo", some 3) ∉ purgeOblist {1} [("foo", some 3), ("bar", some 1)]
    ∧ (intern ⟨purgeOblist {1} [("foo", some 3), ("bar", some 1)], 4⟩ "foo").2 = 4
    ∧ (intern ⟨purgeOblist {1} [("foo", some 3), ("bar", some 1)], 4⟩ "foo").2 ≠ 3 := by
  have h := symbol_purge {1} [("foo", some 3), ("bar", some 1)] "foo" 3 4 false
    (by decide) (by decide)
    (by
      intro v hv
      rcases List.mem_cons.mp hv with h1 | h1
      · rw [Prod.mk.injEq] at h1
        exact h1.2
      · rcases List.mem_cons.mp h1 with h2 | h2
        · rw [Prod.mk.injEq] at h2
          exact absurd h2.1 (by decide)
        · exact absurd h2 (List.not_mem_nil _))
    (by decide)
  exact ⟨h.1, h.2.2.2.1, h.2.2.2.2⟩

end GC

end Picrin
